import Mathlib

set_option maxHeartbeats 1000000

/-!
Shallow embedding of the dependency-graph manager of the task-master
repository: tasks with ordered dependency lists, circular-dependency
detection, dependency addition, and the validation/repair pass, together
with proofs of the behavioural claims about them.
-/

deriving instance DecidableEq for Except

namespace TaskMaster

/-- A task record: identifier, optional ordered dependency list (the stored
JSON may lack the field entirely, which the code distinguishes from an empty
list), optional last-modified stamp, and an opaque field standing for all
metadata the graph operations carry untouched. -/
structure Task where
  id : Nat
  dependencies : Option (List Nat)
  updatedAt : Option Nat
  extra : Nat
  deriving Repr, DecidableEq

/-- Error kinds surfaced by addDependency, one per throw site in the source. -/
inductive AddError where
  | taskNotFound
  | depNotFound
  | selfDependency
  | duplicateEdge
  | cycleError
  deriving Repr, DecidableEq

/-- First-match update: replaces the first task whose id matches, mirroring
the source which mutates the object returned by tasks.find. -/
def updateFirst (tasks : List Task) (tid : Nat) (f : Task → Task) : List Task :=
  match tasks with
  | [] => []
  | t :: rest => if t.id == tid then f t :: rest else t :: updateFirst rest tid f

/-- The dependency list of the first task with the given id (empty when the
task is absent or its dependencies field is missing). -/
def depsOf (tasks : List Task) (n : Nat) : List Nat :=
  match tasks.find? (fun t => t.id == n) with
  | some t => t.dependencies.getD []
  | none => []

/-- There is a dependency edge from a to b. -/
def hasEdge (tasks : List Task) (a b : Nat) : Bool :=
  (depsOf tasks a).contains b

/-- Some task of the collection has the given id. -/
def existsNode (tasks : List Task) (n : Nat) : Bool :=
  tasks.any (fun t => t.id == n)

/-- One step of the loop over a task's dependencies in isCircularDependency:
keeps an already-found answer and otherwise tests one dependency, matching
the short-circuiting of the source loop. -/
def circStep (rec : Nat → Option Bool) (target : Nat) (acc : Option Bool)
    (d : Nat) : Option Bool :=
  match acc with
  | none => none
  | some true => some true
  | some false => if d == target then some true else rec d

/-- Fuelled transcription of isCircularDependency from the source: returns
true when the search revisits a node on the current path or reaches the
target, false when it exhausts all paths, and none only when the fuel
(recursion-depth budget) runs out. Each recursive call copies the path-local
visited set, as the source does with new Set(visited). -/
def isCircularDependencyF (tasks : List Task) (fuel : Nat)
    (taskId dependencyId : Nat) (visited : List Nat) : Option Bool :=
  match fuel with
  | 0 => none
  | fuel' + 1 =>
    if visited.contains taskId then some true
    else
      match tasks.find? (fun t => t.id == taskId) with
      | none => some false
      | some task =>
        if taskId == dependencyId then some true
        else
          (task.dependencies.getD []).foldl
            (circStep
              (fun d => isCircularDependencyF tasks fuel' d dependencyId
                (taskId :: visited))
              dependencyId)
            (some false)

/-- Total version of the source's isCircularDependency: the recursion always
terminates within tasks.length + 1 nested calls (proved below), so that
budget is safe. -/
def isCircularDependency (tasks : List Task) (taskId dependencyId : Nat) : Bool :=
  (isCircularDependencyF tasks (tasks.length + 1) taskId dependencyId []).getD false

/-- The source's defensive normalisation: when the found task has no
dependencies field, it is initialised to the empty list in place. -/
def normIf (tasks : List Task) (taskId : Nat) (task : Task) : List Task :=
  if task.dependencies.isNone then
    updateFirst tasks taskId (fun u => { u with dependencies := some [] })
  else tasks

/-- The source's successful update: push the dependency onto the task's list
and stamp the task as just modified. -/
def appendDep (tasks : List Task) (taskId dependencyId now : Nat)
    (deps : List Nat) : List Task :=
  updateFirst tasks taskId
    (fun u => { u with dependencies := some (deps ++ [dependencyId]),
                       updatedAt := some now })

/-- Transcription of addDependency from the source, returning the result of
the call together with the in-memory collection as it stands when the call
returns (the source mutates tasksData in place, so an error can leave a
normalised dependencies field behind). -/
def addDependency (tasks : List Task) (taskId dependencyId now : Nat) :
    Except AddError Unit × List Task :=
  match tasks.find? (fun t => t.id == taskId) with
  | none => (Except.error AddError.taskNotFound, tasks)
  | some task =>
    match tasks.find? (fun t => t.id == dependencyId) with
    | none => (Except.error AddError.depNotFound, tasks)
    | some _ =>
      if taskId == dependencyId then (Except.error AddError.selfDependency, tasks)
      else
        let tasks1 := normIf tasks taskId task
        let deps := task.dependencies.getD []
        if deps.contains dependencyId then
          (Except.error AddError.duplicateEdge, tasks1)
        else if isCircularDependency tasks1 dependencyId taskId then
          (Except.error AddError.cycleError, tasks1)
        else
          (Except.ok (), appendDep tasks1 taskId dependencyId now deps)

/-- Runs a sequence of addDependency commands (taskId, dependencyId, stamp),
keeping only the successful results: a failed call's collection is discarded
because the source only persists the collection on success. -/
def applyAdds (tasks : List Task) : List (Nat × Nat × Nat) → List Task
  | [] => tasks
  | c :: rest =>
    match addDependency tasks c.1 c.2.1 c.2.2 with
    | (Except.ok _, tasks') => applyAdds tasks' rest
    | (Except.error _, _) => applyAdds tasks rest

/-- b is reachable from a by one or more dependency edges. -/
inductive Reaches (tasks : List Task) : Nat → Nat → Prop
  | single {a b : Nat} : hasEdge tasks a b = true → Reaches tasks a b
  | cons {a b c : Nat} : hasEdge tasks a b = true → Reaches tasks b c →
      Reaches tasks a c

/-- Invariant I1: every identifier in a dependency list names a task. -/
def RefIntegrity (tasks : List Task) : Prop :=
  ∀ t ∈ tasks, ∀ d ∈ t.dependencies.getD [], existsNode tasks d = true

/-- Invariant I3: no task lists its own identifier as a dependency. -/
def NoSelfLoop (tasks : List Task) : Prop :=
  ∀ t ∈ tasks, t.id ∉ t.dependencies.getD []

/-- Invariant I2: no task is reachable from itself over dependency edges. -/
def Acyclic (tasks : List Task) : Prop :=
  ∀ a, ¬ Reaches tasks a a

/-- The validation report: dangling references as (owner, target) pairs,
self-loop owners, and cycles as ordered identifier sequences. -/
structure DepReport where
  danglers : List (Nat × Nat)
  selfLoops : List Nat
  cycles : List (List Nat)
  deriving Repr, DecidableEq

/-- All dangling references: entries of a dependency list naming no task. -/
def danglersOf (tasks : List Task) : List (Nat × Nat) :=
  tasks.flatMap (fun t =>
    ((t.dependencies.getD []).filter (fun d => !existsNode tasks d)).map
      (fun d => (t.id, d)))

/-- All self-loop owners: tasks listing their own id as a dependency. -/
def selfLoopsOf (tasks : List Task) : List Nat :=
  (tasks.filter (fun t => (t.dependencies.getD []).contains t.id)).map Task.id

/-- The slice of the DFS stack from the first occurrence of d to the top. -/
def sliceFrom (stack : List Nat) (d : Nat) : List Nat :=
  stack.dropWhile (fun x => x != d)

/-- One step of the DFS loop over a node's dependencies: an edge back into
the stack yields the stack slice as a cycle, an edge to a visited node is
skipped, and an edge to a fresh node recurses. -/
def dfsStep (rec : Nat → List Nat → List Nat × List (List Nat))
    (stackQ : List Nat) (acc : List Nat × List (List Nat)) (d : Nat) :
    List Nat × List (List Nat) :=
  if stackQ.contains d then (acc.1, acc.2 ++ [sliceFrom stackQ d])
  else if acc.1.contains d then acc
  else ((rec d acc.1).1, acc.2 ++ (rec d acc.1).2)

/-- Depth-first cycle enumeration from one node: carries the global visited
set and the current stack, and returns the new visited set with the cycles
found, per the spec's stack-slice rule. -/
def cycleDFS (tasks : List Task) (fuel : Nat) (node : Nat) (stack : List Nat)
    (visited : List Nat) : List Nat × List (List Nat) :=
  match fuel with
  | 0 => (visited, [])
  | fuel' + 1 =>
    (depsOf tasks node).foldl
      (dfsStep (fun d v => cycleDFS tasks fuel' d (stack ++ [node]) v)
        (stack ++ [node]))
      (node :: visited, [])

/-- Total number of dependency entries in the collection. -/
def totalDeps (tasks : List Task) : Nat :=
  (tasks.map (fun t => (t.dependencies.getD []).length)).sum

/-- Depth budget for the DFS: more than every identifier it could visit. -/
def dfsFuel (tasks : List Task) : Nat :=
  tasks.length + totalDeps tasks + 1

/-- One step of the driver loop: start a DFS from each not-yet-visited
task. -/
def cyclesStep (tasks : List Task) (acc : List Nat × List (List Nat))
    (t : Task) : List Nat × List (List Nat) :=
  if acc.1.contains t.id then acc
  else ((cycleDFS tasks (dfsFuel tasks) t.id [] acc.1).1,
        acc.2 ++ (cycleDFS tasks (dfsFuel tasks) t.id [] acc.1).2)

/-- All cycles of the collection: DFS from every not-yet-visited task. -/
def cyclesOf (tasks : List Task) : List (List Nat) :=
  (tasks.foldl (cyclesStep tasks) ([], [])).2

/-- Modelled from the spec: the implementation of validateDependencies lives
in scripts/modules/dependency-manager.js, which is not among the provided
sources (only its description survives), so this follows the spec's words: a
pure scan reporting dangling references (I1), self-loops (I3), and every
cycle as the ordered stack slice found by depth-first search (I2). -/
def validateDependencies (tasks : List Task) : DepReport :=
  { danglers := danglersOf tasks
    selfLoops := selfLoopsOf tasks
    cycles := cyclesOf tasks }

/-- Removes the edge a -> b: drops b from the dependency list of every task
with id a (set semantics: duplicates of one target are one edge). -/
def removeEdge (tasks : List Task) (a b : Nat) : List Task :=
  tasks.map (fun t =>
    if t.id == a then
      { t with dependencies := t.dependencies.map (fun l => l.filter (fun x => x != b)) }
    else t)

/-- Removes a list of edges in order. -/
def applyRemovals (tasks : List Task) (qs : List (Nat × Nat)) : List Task :=
  qs.foldl (fun g p => removeEdge g p.1 p.2) tasks

/-- The highest identifier of a cycle. -/
def cycMax (c : List Nat) : Nat := c.foldl max 0

/-- Helper walking a cycle for the element after the first occurrence of m,
wrapping around to the head h. -/
def cycSuccAux (h m : Nat) : List Nat → Nat
  | a :: b :: rest => if a == m then b else cycSuccAux h m (b :: rest)
  | _ => h

/-- The successor of m in the cycle ordering (cyclically). -/
def cycSucc (c : List Nat) (m : Nat) : Nat :=
  match c with
  | [] => m
  | h :: t => cycSuccAux h m (h :: t)

/-- For each reported cycle, the edge to drop: from the highest-identifier
node of the cycle to that node's successor in the cycle ordering. -/
def breakPairs (cs : List (List Nat)) : List (Nat × Nat) :=
  cs.map (fun c => (cycMax c, cycSucc c (cycMax c)))

/-- The repair loop: re-runs cycle detection and breaks every reported cycle
until none remain or the pass budget is exhausted. -/
def fixLoop : Nat → List Task → List Task
  | 0, g => g
  | fuel + 1, g =>
    if cyclesOf g = [] then g
    else fixLoop fuel (applyRemovals g (breakPairs (cyclesOf g)))

/-- Steps 1 to 3 of the repair policy: remove every reported dangling
reference, then every reported self-loop, then break every reported cycle by
removing the edge from the cycle's highest-identifier node to its
successor. -/
def fixPrep (g : List Task) : List Task :=
  applyRemovals (applyRemovals (applyRemovals g (danglersOf g))
    ((selfLoopsOf g).map (fun n => (n, n)))) (breakPairs (cyclesOf g))

/-- Modelled from the spec: the implementation of fixDependencies lives in
scripts/modules/dependency-manager.js, which is not among the provided
sources (only its description survives), so this follows the spec's policy:
remove every reported dangling reference, then every reported self-loop,
then break every reported cycle by removing the edge from the cycle's
highest-identifier node to its successor, re-running detection until no
cycle remains within a pass budget of at least the number of nodes (the
budget chosen here is large enough that it is never exhausted, which is
proved below, so the unresolvable-cycle outcome cannot occur). -/
def fixDependencies (g : List Task) : List Task :=
  fixLoop (totalDeps (fixPrep g) + g.length + 1) (fixPrep g)

/-- The consecutive elements of the list are joined by dependency edges. -/
def chainB (tasks : List Task) : List Nat → Bool
  | a :: b :: rest => hasEdge tasks a b && chainB tasks (b :: rest)
  | _ => true

/-- The list is a closed edge cycle: consecutive edges plus the edge from
the last element back to the head. -/
def realCycle (tasks : List Task) (c : List Nat) : Bool :=
  match c with
  | [] => false
  | h :: t => chainB tasks (h :: t) && hasEdge tasks ((h :: t).getLastD h) h

/-- The three-task chain of the spec's first concrete scenario. -/
def exC6 : List Task :=
  [⟨1, some [], none, 0⟩, ⟨2, some [1], none, 0⟩, ⟨3, some [2], none, 0⟩]

/-- The two-task cycle of the spec's fourth concrete scenario. -/
def exPair : List Task :=
  [⟨1, some [2], none, 0⟩, ⟨2, some [1], none, 0⟩]

/-- Expected repair of exPair: the edge from node 2 to node 1 removed. -/
def exPairFixed : List Task :=
  [⟨1, some [2], none, 0⟩, ⟨2, some [], none, 0⟩]

/-- A task whose dependencies field is missing, depended on by task 1. -/
def exMissingField : List Task :=
  [⟨1, some [3], none, 0⟩, ⟨3, none, none, 0⟩]

/-- Like exMissingField but with the dependencies field present. -/
def exCycWit : List Task :=
  [⟨1, some [3], none, 0⟩, ⟨3, some [], none, 0⟩]

/-- A collection with a pre-existing 1-2 cycle, an isolated task 3 and a
task 4 whose dependencies lead into the cycle but never reach 3. -/
def exNine : List Task :=
  [⟨1, some [2], none, 0⟩, ⟨2, some [1], none, 0⟩,
   ⟨3, some [], none, 0⟩, ⟨4, some [1], none, 0⟩]

/-- exNine with the hypothetical extra edge 3 -> 4 in place. -/
def exNinePlus : List Task :=
  [⟨1, some [2], none, 0⟩, ⟨2, some [1], none, 0⟩,
   ⟨3, some [4], none, 0⟩, ⟨4, some [1], none, 0⟩]

/-! ### Basic bridges between the executable definitions and membership -/

theorem contains_iff {l : List Nat} {a : Nat} : l.contains a = true ↔ a ∈ l :=
  List.elem_iff

theorem find?_id_eq {tasks : List Task} {n : Nat} {tk : Task}
    (h : tasks.find? (fun t => t.id == n) = some tk) : tk.id = n := by
  simpa using List.find?_some h

theorem hasEdge_exists {tasks : List Task} {a b : Nat}
    (h : hasEdge tasks a b = true) :
    ∃ tk ∈ tasks, tk.id = a ∧ b ∈ tk.dependencies.getD [] := by
  unfold hasEdge depsOf at h
  cases hf : tasks.find? (fun t => t.id == a) with
  | none => rw [hf] at h; simp at h
  | some tk =>
    rw [hf] at h
    exact ⟨tk, List.mem_of_find?_eq_some hf, find?_id_eq hf, contains_iff.mp h⟩

theorem hasEdge_of_find {tasks : List Task} {a b : Nat} {tk : Task}
    (hf : tasks.find? (fun t => t.id == a) = some tk)
    (hb : b ∈ tk.dependencies.getD []) : hasEdge tasks a b = true := by
  unfold hasEdge depsOf
  rw [hf]
  exact contains_iff.mpr hb

theorem depsOf_of_find {tasks : List Task} {a : Nat} {tk : Task}
    (hf : tasks.find? (fun t => t.id == a) = some tk) :
    depsOf tasks a = tk.dependencies.getD [] := by
  unfold depsOf; rw [hf]

theorem mem_depsOf_hasEdge {tasks : List Task} {n d : Nat}
    (h : d ∈ depsOf tasks n) : hasEdge tasks n d = true :=
  contains_iff.mpr h

/-! ### updateFirst: how a first-match update is observed -/

theorem updateFirst_find_ne {l : List Task} {tid x : Nat} (f : Task → Task)
    (hf : ∀ u, (f u).id = u.id) (hne : x ≠ tid) :
    (updateFirst l tid f).find? (fun u => u.id == x) =
      l.find? (fun u => u.id == x) := by
  induction l with
  | nil => rfl
  | cons t rest ih =>
    unfold updateFirst
    by_cases h : t.id = tid
    · rw [if_pos (by simpa using h)]
      have h1 : ((f t).id == x) = false := by simp [hf t, h, Ne.symm hne]
      have h2 : (t.id == x) = false := by simp [h, Ne.symm hne]
      rw [List.find?_cons, List.find?_cons, h1, h2]
    · rw [if_neg (by simpa using h)]
      rw [List.find?_cons, List.find?_cons]
      by_cases hx : t.id = x
      · have hb : (t.id == x) = true := by simpa using hx
        rw [hb]
      · have hb : (t.id == x) = false := by simpa using hx
        rw [hb]
        exact ih

theorem updateFirst_find_eq {l : List Task} {tid : Nat} (f : Task → Task) {a : Task}
    (hf : ∀ u, (f u).id = u.id)
    (hfind : l.find? (fun u => u.id == tid) = some a) :
    (updateFirst l tid f).find? (fun u => u.id == tid) = some (f a) := by
  induction l with
  | nil => simp at hfind
  | cons t rest ih =>
    unfold updateFirst
    by_cases h : t.id = tid
    · have hb : (t.id == tid) = true := by simpa using h
      rw [if_pos hb]
      rw [List.find?_cons, hb] at hfind
      have h2 : some t = some a := hfind
      rw [List.find?_cons, show ((f t).id == tid) = true by simp [hf t, h]]
      injection h2 with h3
      rw [h3]
    · have hb : (t.id == tid) = false := by simpa using h
      rw [if_neg (by simp [hb])]
      rw [List.find?_cons, hb] at hfind
      rw [List.find?_cons, hb]
      exact ih hfind

theorem updateFirst_map_id {l : List Task} {tid : Nat} (f : Task → Task)
    (hf : ∀ u, (f u).id = u.id) :
    (updateFirst l tid f).map Task.id = l.map Task.id := by
  induction l with
  | nil => rfl
  | cons t rest ih =>
    unfold updateFirst
    by_cases h : t.id = tid
    · rw [if_pos (by simpa using h)]
      simp [hf t]
    · rw [if_neg (by simpa using h)]
      simp [ih]

theorem updateFirst_findIdx {l : List Task} {tid x : Nat} (f : Task → Task)
    (hf : ∀ u, (f u).id = u.id) :
    (updateFirst l tid f).findIdx (fun u => u.id == x) =
      l.findIdx (fun u => u.id == x) := by
  induction l with
  | nil => rfl
  | cons t rest ih =>
    unfold updateFirst
    by_cases h : t.id = tid
    · rw [if_pos (by simpa using h)]
      rw [List.findIdx_cons, List.findIdx_cons]
      simp [hf t]
    · rw [if_neg (by simpa using h)]
      rw [List.findIdx_cons, List.findIdx_cons]
      by_cases hx : t.id = x
      · simp [hx]
      · simp only [ih]

theorem updateFirst_get?_ne {l : List Task} {tid : Nat} (f : Task → Task) :
    ∀ {i : Nat}, i ≠ l.findIdx (fun u => u.id == tid) →
      (updateFirst l tid f).get? i = l.get? i := by
  induction l with
  | nil => intro i _; rfl
  | cons t rest ih =>
    intro i hi
    unfold updateFirst
    rw [List.findIdx_cons] at hi
    by_cases h : t.id = tid
    · have hb : (t.id == tid) = true := by simpa using h
      rw [if_pos hb]
      rw [hb] at hi
      match i with
      | 0 => exact absurd rfl hi
      | j + 1 => simp [List.get?_cons_succ]
    · have hb : (t.id == tid) = false := by simpa using h
      rw [if_neg (by simp [hb])]
      rw [hb] at hi
      match i with
      | 0 => rfl
      | j + 1 =>
        simp only [List.get?_cons_succ]
        have hi2 : j + 1 ≠ rest.findIdx (fun u => u.id == tid) + 1 := hi
        exact ih (by omega)

theorem find?_get_idx {l : List Task} {p : Task → Bool} {a : Task}
    (h : l.find? p = some a) : l.get? (l.findIdx p) = some a := by
  induction l with
  | nil => simp at h
  | cons t rest ih =>
    rw [List.findIdx_cons]
    by_cases hp : p t = true
    · rw [List.find?_cons, hp] at h
      have h2 : some t = some a := h
      injection h2 with h3
      subst h3
      simp [hp]
    · have hb : p t = false := by simpa using hp
      rw [List.find?_cons, hb] at h
      rw [hb]
      have h2 : (t :: rest).get? (List.findIdx p rest + 1) = rest.get? (List.findIdx p rest) := List.get?_cons_succ
      exact h2.trans (ih h)

theorem updateFirst_get?_at {l : List Task} {tid : Nat} (f : Task → Task) {a : Task}
    (hfind : l.find? (fun u => u.id == tid) = some a) :
    (updateFirst l tid f).get? (l.findIdx (fun u => u.id == tid)) = some (f a) := by
  induction l with
  | nil => simp at hfind
  | cons t rest ih =>
    unfold updateFirst
    rw [List.findIdx_cons]
    by_cases h : t.id = tid
    · have hb : (t.id == tid) = true := by simpa using h
      rw [if_pos hb]
      rw [List.find?_cons, hb] at hfind
      have h2 : some t = some a := hfind
      injection h2 with h3
      subst h3
      simp [hb]
    · have hb : (t.id == tid) = false := by simpa using h
      rw [if_neg (by simp [hb])]
      rw [List.find?_cons, hb] at hfind
      rw [hb]
      have h2 : (t :: updateFirst rest tid f).get?
          (rest.findIdx (fun u => u.id == tid) + 1) =
          (updateFirst rest tid f).get? (rest.findIdx (fun u => u.id == tid)) :=
        List.get?_cons_succ
      exact h2.trans (ih hfind)

/-! ### Reachability theory -/

theorem reaches_trans {g : List Task} {a b c : Nat}
    (h1 : Reaches g a b) : Reaches g b c → Reaches g a c := by
  induction h1 with
  | single e => intro h2; exact .cons e h2
  | cons e _ ih => intro h2; exact .cons e (ih h2)

theorem reaches_congr {g g' : List Task}
    (h : ∀ x y, hasEdge g x y = hasEdge g' x y) {a b : Nat} :
    Reaches g a b → Reaches g' a b := by
  intro hr
  induction hr with
  | single e => exact .single ((h _ _).symm.trans e)
  | cons e _ ih => exact .cons ((h _ _).symm.trans e) ih

theorem reach_closed {g : List Task} {S : List Nat}
    (hcl : ∀ a ∈ S, ∀ b, hasEdge g a b = true → b ∈ S) {x y : Nat} :
    Reaches g x y → x ∈ S → y ∈ S := by
  intro hr
  induction hr with
  | single e => intro hx; exact hcl _ hx _ e
  | cons e _ ih => intro hx; exact ih (hcl _ hx _ e)

theorem reaches_lt {g : List Task} {f : Nat → Nat}
    (hm : ∀ a b, hasEdge g a b = true → f b < f a) {a b : Nat} :
    Reaches g a b → f b < f a := by
  intro hr
  induction hr with
  | single e => exact hm _ _ e
  | cons e _ ih => exact ih.trans (hm _ _ e)

theorem acyclic_of_measure {g : List Task} (f : Nat → Nat)
    (hm : ∀ a b, hasEdge g a b = true → f b < f a) : Acyclic g := by
  intro a h
  exact absurd (reaches_lt hm h) (lt_irrefl _)

theorem reach_decomp {g g' : List Task} {t d : Nat}
    (hEq : ∀ x y, hasEdge g' x y = true ↔
      (hasEdge g x y = true ∨ (x = t ∧ y = d))) :
    ∀ {x y}, Reaches g' x y →
      Reaches g x y ∨ ((x = t ∨ Reaches g x t) ∧ (d = y ∨ Reaches g d y)) := by
  intro x y h
  induction h with
  | single e =>
    rcases (hEq _ _).mp e with he | ⟨hx, hy⟩
    · exact Or.inl (.single he)
    · exact Or.inr ⟨Or.inl hx, Or.inl hy.symm⟩
  | cons e _ ih =>
    rcases (hEq _ _).mp e with he | ⟨ha, hc⟩
    · rcases ih with hgc | ⟨hct, hdy⟩
      · exact Or.inl (.cons he hgc)
      · refine Or.inr ⟨Or.inr ?_, hdy⟩
        rcases hct with rfl | hct
        · exact .single he
        · exact .cons he hct
    · subst ha; subst hc
      rcases ih with hgd | ⟨_, hdy⟩
      · exact Or.inr ⟨Or.inl rfl, Or.inr hgd⟩
      · exact Or.inr ⟨Or.inl rfl, hdy⟩

theorem reach_cross {g : List Task} {t d x : Nat} (hne : t ≠ d)
    (h1 : x = t ∨ Reaches g x t) (h2 : d = x ∨ Reaches g d x) :
    Reaches g d t := by
  rcases h2 with rfl | h2
  · rcases h1 with rfl | h1
    · exact absurd rfl hne.symm
    · exact h1
  · rcases h1 with rfl | h1
    · exact h2
    · exact reaches_trans h2 h1

/-! ### Termination and completeness of the circular-dependency search -/

theorem hasEdge_find {tasks : List Task} {a b : Nat}
    (h : hasEdge tasks a b = true) :
    ∃ tk, tasks.find? (fun t => t.id == a) = some tk ∧
      b ∈ tk.dependencies.getD [] := by
  unfold hasEdge depsOf at h
  cases hf : tasks.find? (fun t => t.id == a) with
  | none => rw [hf] at h; simp at h
  | some tk => rw [hf] at h; exact ⟨tk, rfl, contains_iff.mp h⟩

/-- Distinct task identifiers not yet on the visited path. -/
def freshCount (tasks : List Task) (visited : List Nat) : Nat :=
  (((tasks.map Task.id).dedup).filter (fun i => !visited.contains i)).length

theorem filter_not_contains_cons {l v : List Nat} {a : Nat}
    (hnd : l.Nodup) (ha : a ∈ l) (hv : v.contains a = false) :
    (l.filter (fun i => !(a :: v).contains i)).length + 1 =
      (l.filter (fun i => !v.contains i)).length := by
  induction l with
  | nil => simp at ha
  | cons x xs ih =>
    by_cases hxa : x = a
    · subst hxa
      have hnotin : x ∉ xs := (List.nodup_cons.mp hnd).1
      have heq : xs.filter (fun i => !(x :: v).contains i) =
          xs.filter (fun i => !v.contains i) := by
        apply List.filter_congr
        intro i hi
        have hne : (i == x) = false := by
          simp [show i ≠ x from fun he => hnotin (he ▸ hi)]
        rw [List.contains_cons, hne, Bool.false_or]
      simp only [List.filter]
      rw [show ((!(x :: v).contains x) = false) by
            rw [List.contains_cons]; simp,
          show ((!v.contains x) = true) by rw [hv]; rfl,
          heq]
      rfl
    · have hxs : a ∈ xs := by
        rcases List.mem_cons.mp ha with h | h
        · exact absurd h.symm hxa
        · exact h
      have ih2 := ih (List.nodup_cons.mp hnd).2 hxs
      have hkeep : (!(a :: v).contains x) = (!v.contains x) := by
        rw [List.contains_cons, show (x == a) = false by simp [hxa],
          Bool.false_or]
      simp only [List.filter]
      rw [hkeep]
      cases hb : (!v.contains x) with
      | true =>
        simp only [List.length_cons]
        omega
      | false => exact ih2

theorem freshCount_cons {tasks : List Task} {visited : List Nat} {tid : Nat}
    (hmem : tid ∈ tasks.map Task.id) (hv : visited.contains tid = false) :
    freshCount tasks (tid :: visited) + 1 = freshCount tasks visited :=
  filter_not_contains_cons (List.nodup_dedup _) (List.mem_dedup.mpr hmem) hv

theorem freshCount_le (tasks : List Task) (visited : List Nat) :
    freshCount tasks visited ≤ tasks.length := by
  unfold freshCount
  calc (((tasks.map Task.id).dedup).filter (fun i => !visited.contains i)).length
      ≤ ((tasks.map Task.id).dedup).length := List.length_filter_le _ _
    _ ≤ (tasks.map Task.id).length := (List.dedup_sublist _).length_le
    _ = tasks.length := by simp

theorem freshCount_nil_visited (tasks : List Task) :
    freshCount tasks [] = (tasks.map Task.id).dedup.length := by
  unfold freshCount
  rw [List.filter_eq_self.mpr]
  intro a _
  simp [List.contains]

theorem foldl_circStep_isSome {rec : Nat → Option Bool} {target : Nat} :
    ∀ (ds : List Nat) (acc : Option Bool), acc.isSome = true →
      (∀ d ∈ ds, (rec d).isSome = true) →
      (ds.foldl (circStep rec target) acc).isSome = true := by
  intro ds
  induction ds with
  | nil => intro acc ha _; exact ha
  | cons d rest ih =>
    intro acc ha hds
    rw [List.foldl_cons]
    have hstep : (circStep rec target acc d).isSome = true := by
      cases acc with
      | none => simp at ha
      | some b =>
        cases b with
        | true => rfl
        | false =>
          unfold circStep
          by_cases hd : (d == target) = true
          · simp [hd]
          · have hd' : (d == target) = false := by simpa using hd
            simp only [hd']
            exact hds d (by simp)
    exact ih _ hstep (fun x hx => hds x (by simp [hx]))

theorem circF_total : ∀ (fuel : Nat) (tasks : List Task) (target : Nat)
    (visited : List Nat) (tid : Nat), freshCount tasks visited < fuel →
    (isCircularDependencyF tasks fuel tid target visited).isSome = true := by
  intro fuel
  induction fuel with
  | zero => intro _ _ _ _ h; omega
  | succ f ih =>
    intro tasks target visited tid h
    unfold isCircularDependencyF
    by_cases hv : visited.contains tid = true
    · rw [if_pos hv]; rfl
    · rw [if_neg hv]
      split
      · rfl
      · next task hfind =>
        split
        · rfl
        · apply foldl_circStep_isSome
          · rfl
          intro d _
          apply ih
          have hmem : tid ∈ tasks.map Task.id := by
            have h1 := find?_id_eq hfind
            have h2 := List.mem_of_find?_eq_some hfind
            exact h1 ▸ List.mem_map_of_mem Task.id h2
          have hv' : visited.contains tid = false := by
            cases hcv : visited.contains tid
            · rfl
            · exact absurd hcv hv
          have := freshCount_cons hmem hv'
          omega

theorem foldl_circStep_true {rec : Nat → Option Bool} {target : Nat} :
    ∀ (ds : List Nat), ds.foldl (circStep rec target) (some true) = some true := by
  intro ds
  induction ds with
  | nil => rfl
  | cons d rest ih => rw [List.foldl_cons]; exact ih

theorem foldl_circStep_hit {rec : Nat → Option Bool} {target : Nat} :
    ∀ (ds : List Nat), (∀ d ∈ ds, (rec d).isSome = true) →
      ∀ d0 ∈ ds, (d0 = target ∨ rec d0 = some true) →
      ds.foldl (circStep rec target) (some false) = some true := by
  intro ds
  induction ds with
  | nil => intro _ d0 h; simp at h
  | cons d rest ih =>
    intro hall d0 hd0 hcase
    rw [List.foldl_cons]
    have hrecd : (rec d).isSome = true := hall d (by simp)
    rcases List.mem_cons.mp hd0 with rfl | hmem
    · rcases hcase with rfl | hrec
      · have hs : circStep rec d0 (some false) d0 = some true := by
          unfold circStep; simp
        rw [hs]; exact foldl_circStep_true rest
      · have hs : circStep rec target (some false) d0 = some true := by
          unfold circStep
          by_cases hd : (d0 == target) = true
          · simp [hd]
          · have hd' : (d0 == target) = false := by simpa using hd
            simp [hd', hrec]
        rw [hs]; exact foldl_circStep_true rest
    · by_cases hd : (d == target) = true
      · have hs : circStep rec target (some false) d = some true := by
          unfold circStep; simp [hd]
        rw [hs]; exact foldl_circStep_true rest
      · have hd' : (d == target) = false := by simpa using hd
        have hs : circStep rec target (some false) d = rec d := by
          unfold circStep; simp [hd']
        rw [hs]
        cases hb : rec d with
        | none => rw [hb] at hrecd; simp at hrecd
        | some b =>
          cases b with
          | true => exact foldl_circStep_true rest
          | false => exact ih (fun x hx => hall x (by simp [hx])) d0 hmem hcase

theorem circF_complete {g : List Task} {a b : Nat} (hr : Reaches g a b) :
    ∀ (fuel : Nat) (visited : List Nat), freshCount g visited < fuel →
      isCircularDependencyF g fuel a b visited = some true := by
  induction hr with
  | @single a b e =>
    intro fuel visited hfc
    match fuel with
    | 0 => omega
    | f + 1 =>
      unfold isCircularDependencyF
      by_cases hv : visited.contains a = true
      · rw [if_pos hv]
      · rw [if_neg hv]
        have hv' : visited.contains a = false := by
          cases hcv : visited.contains a
          · rfl
          · exact absurd hcv hv
        obtain ⟨tk, hfind, hb⟩ := hasEdge_find e
        have hmem : a ∈ g.map Task.id :=
          find?_id_eq hfind ▸ List.mem_map_of_mem Task.id
            (List.mem_of_find?_eq_some hfind)
        have hfc2 := freshCount_cons hmem hv'
        split
        · next heq => rw [hfind] at heq; cases heq
        · next task heq =>
          rw [hfind] at heq
          injection heq with h2
          subst h2
          split
          · rfl
          · apply foldl_circStep_hit
            · intro d _
              exact circF_total f g b (a :: visited) d (by omega)
            · exact hb
            · exact Or.inl rfl
  | @cons a c b e hr2 ih =>
    intro fuel visited hfc
    match fuel with
    | 0 => omega
    | f + 1 =>
      unfold isCircularDependencyF
      by_cases hv : visited.contains a = true
      · rw [if_pos hv]
      · rw [if_neg hv]
        have hv' : visited.contains a = false := by
          cases hcv : visited.contains a
          · rfl
          · exact absurd hcv hv
        obtain ⟨tk, hfind, hc⟩ := hasEdge_find e
        have hmem : a ∈ g.map Task.id :=
          find?_id_eq hfind ▸ List.mem_map_of_mem Task.id
            (List.mem_of_find?_eq_some hfind)
        have hfc2 := freshCount_cons hmem hv'
        split
        · next heq => rw [hfind] at heq; cases heq
        · next task heq =>
          rw [hfind] at heq
          injection heq with h2
          subst h2
          split
          · rfl
          · apply foldl_circStep_hit
            · intro d _
              exact circF_total f g b (a :: visited) d (by omega)
            · exact hc
            · exact Or.inr (ih f (a :: visited) (by omega))

theorem circ_true_of_reaches {g : List Task} {a b : Nat} (hr : Reaches g a b) :
    isCircularDependency g a b = true := by
  unfold isCircularDependency
  rw [circF_complete hr (g.length + 1) []
    (by have := freshCount_le g []; omega)]
  rfl

theorem not_reaches_of_circ_false {g : List Task} {a b : Nat}
    (h : isCircularDependency g a b = false) : ¬ Reaches g a b :=
  fun hr => by rw [circ_true_of_reaches hr] at h; cases h

/-! ### Case analysis of addDependency -/

theorem addDependency_none_t {tasks : List Task} {t d now : Nat}
    (hft : tasks.find? (fun u => u.id == t) = none) :
    addDependency tasks t d now = (Except.error AddError.taskNotFound, tasks) := by
  unfold addDependency
  rw [hft]

theorem addDependency_none_d {tasks : List Task} {t d now : Nat} {tk : Task}
    (hft : tasks.find? (fun u => u.id == t) = some tk)
    (hfd : tasks.find? (fun u => u.id == d) = none) :
    addDependency tasks t d now = (Except.error AddError.depNotFound, tasks) := by
  unfold addDependency
  rw [hft, hfd]

theorem addDependency_self {tasks : List Task} {t d now : Nat} {tk u : Task}
    (hft : tasks.find? (fun u => u.id == t) = some tk)
    (hfd : tasks.find? (fun u => u.id == d) = some u)
    (htd : t = d) :
    addDependency tasks t d now = (Except.error AddError.selfDependency, tasks) := by
  unfold addDependency
  rw [hft, hfd]
  simp [htd]

theorem addDependency_dup {tasks : List Task} {t d now : Nat} {tk u : Task}
    (hft : tasks.find? (fun u => u.id == t) = some tk)
    (hfd : tasks.find? (fun u => u.id == d) = some u)
    (htd : t ≠ d)
    (hdup : (tk.dependencies.getD []).contains d = true) :
    addDependency tasks t d now =
      (Except.error AddError.duplicateEdge, normIf tasks t tk) := by
  unfold addDependency
  rw [hft, hfd]
  simp [htd, contains_iff.mp hdup]

theorem addDependency_cycle {tasks : List Task} {t d now : Nat} {tk u : Task}
    (hft : tasks.find? (fun u => u.id == t) = some tk)
    (hfd : tasks.find? (fun u => u.id == d) = some u)
    (htd : t ≠ d)
    (hdup : (tk.dependencies.getD []).contains d = false)
    (hcirc : isCircularDependency (normIf tasks t tk) d t = true) :
    addDependency tasks t d now =
      (Except.error AddError.cycleError, normIf tasks t tk) := by
  unfold addDependency
  rw [hft, hfd]
  have hd : d ∉ tk.dependencies.getD [] := fun hm => by
    rw [contains_iff.mpr hm] at hdup; cases hdup
  simp [htd, hd, hcirc]

theorem addDependency_success {tasks : List Task} {t d now : Nat} {tk u : Task}
    (hft : tasks.find? (fun u => u.id == t) = some tk)
    (hfd : tasks.find? (fun u => u.id == d) = some u)
    (htd : t ≠ d)
    (hdup : (tk.dependencies.getD []).contains d = false)
    (hcirc : isCircularDependency (normIf tasks t tk) d t = false) :
    addDependency tasks t d now =
      (Except.ok (), appendDep (normIf tasks t tk) t d now
        (tk.dependencies.getD [])) := by
  unfold addDependency
  rw [hft, hfd]
  have hd : d ∉ tk.dependencies.getD [] := fun hm => by
    rw [contains_iff.mpr hm] at hdup; cases hdup
  simp [htd, hd, hcirc]

/-! ### Edge relations of the normalised and updated collections -/

theorem depsOf_updateFirst_ne {tasks : List Task} {tid a : Nat} (f : Task → Task)
    (hf : ∀ u, (f u).id = u.id) (hne : a ≠ tid) :
    depsOf (updateFirst tasks tid f) a = depsOf tasks a := by
  unfold depsOf
  rw [updateFirst_find_ne f hf hne]

theorem normIf_depsOf {tasks : List Task} {t : Nat} {tk : Task}
    (hfind : tasks.find? (fun u => u.id == t) = some tk) (a : Nat) :
    depsOf (normIf tasks t tk) a = depsOf tasks a := by
  unfold normIf
  by_cases hN : tk.dependencies.isNone = true
  · rw [if_pos hN]
    by_cases hat : a = t
    · subst hat
      rw [depsOf_of_find (updateFirst_find_eq
          (fun u => { u with dependencies := some [] }) (fun u => rfl) hfind),
        depsOf_of_find hfind]
      cases hdep : tk.dependencies with
      | none => rfl
      | some l => rw [hdep] at hN; simp at hN
    · exact depsOf_updateFirst_ne (fun u => { u with dependencies := some [] })
        (fun u => rfl) hat
  · rw [if_neg hN]

theorem normIf_hasEdge {tasks : List Task} {t : Nat} {tk : Task}
    (hfind : tasks.find? (fun u => u.id == t) = some tk) (a b : Nat) :
    hasEdge (normIf tasks t tk) a b = hasEdge tasks a b := by
  unfold hasEdge
  rw [normIf_depsOf hfind]

theorem normIf_find {tasks : List Task} {t : Nat} {tk : Task}
    (hfind : tasks.find? (fun u => u.id == t) = some tk) :
    ∃ tk1, (normIf tasks t tk).find? (fun u => u.id == t) = some tk1 ∧
      tk1.dependencies.getD [] = tk.dependencies.getD [] ∧
      tk1.id = tk.id ∧ tk1.updatedAt = tk.updatedAt ∧ tk1.extra = tk.extra := by
  unfold normIf
  by_cases hN : tk.dependencies.isNone = true
  · rw [if_pos hN]
    refine ⟨{ tk with dependencies := some [] },
      updateFirst_find_eq (fun u => { u with dependencies := some [] })
        (fun u => rfl) hfind, ?_, rfl, rfl, rfl⟩
    cases hdep : tk.dependencies with
    | none => rfl
    | some l => rw [hdep] at hN; simp at hN
  · rw [if_neg hN]
    exact ⟨tk, hfind, rfl, rfl, rfl, rfl⟩

theorem normIf_find2 {tasks : List Task} {t : Nat} {tk : Task}
    (hfind : tasks.find? (fun u => u.id == t) = some tk) :
    (normIf tasks t tk).find? (fun u => u.id == t) =
      some { tk with dependencies := some (tk.dependencies.getD []) } := by
  obtain ⟨tid, tdep, tupd, tex⟩ := tk
  cases tdep with
  | none =>
    exact updateFirst_find_eq (fun u => { u with dependencies := some [] })
      (fun u => rfl) hfind
  | some l =>
    show tasks.find? (fun u => u.id == t) = _
    rw [hfind]
    rfl

theorem appendDep_hasEdge {g1 : List Task} {t d now : Nat} {tk1 : Task}
    {D : List Nat}
    (hfind : g1.find? (fun u => u.id == t) = some tk1)
    (hD : tk1.dependencies.getD [] = D) (a b : Nat) :
    hasEdge (appendDep g1 t d now D) a b = true ↔
      (hasEdge g1 a b = true ∨ (a = t ∧ b = d)) := by
  unfold appendDep
  by_cases hat : a = t
  · subst hat
    unfold hasEdge
    rw [depsOf_of_find (updateFirst_find_eq
        (fun u => { u with dependencies := some (D ++ [d]), updatedAt := some now })
        (fun u => rfl) hfind),
      depsOf_of_find hfind, hD]
    constructor
    · intro h
      rcases List.mem_append.mp (contains_iff.mp h) with h1 | h1
      · exact Or.inl (contains_iff.mpr h1)
      · exact Or.inr ⟨rfl, by simpa using h1⟩
    · intro h
      rcases h with h1 | ⟨_, rfl⟩
      · exact contains_iff.mpr (List.mem_append.mpr (Or.inl (contains_iff.mp h1)))
      · exact contains_iff.mpr (List.mem_append.mpr (Or.inr (by simp)))
  · unfold hasEdge
    rw [depsOf_updateFirst_ne
      (fun u => { u with dependencies := some (D ++ [d]), updatedAt := some now })
      (fun u => rfl) hat]
    constructor
    · exact Or.inl
    · intro h
      rcases h with h1 | ⟨h1, _⟩
      · exact h1
      · exact absurd h1 hat

/-! ### Success elimination and acyclicity preservation -/

theorem addDependency_ok_elim {tasks : List Task} {t d now : Nat}
    (h : (addDependency tasks t d now).fst = Except.ok ()) :
    ∃ tk, tasks.find? (fun u => u.id == t) = some tk ∧
      (tasks.find? (fun u => u.id == d)).isSome = true ∧
      t ≠ d ∧
      (tk.dependencies.getD []).contains d = false ∧
      isCircularDependency (normIf tasks t tk) d t = false ∧
      (addDependency tasks t d now).snd =
        appendDep (normIf tasks t tk) t d now (tk.dependencies.getD []) := by
  cases hft : tasks.find? (fun u => u.id == t) with
  | none => rw [addDependency_none_t hft] at h; cases h
  | some tk =>
    cases hfd : tasks.find? (fun u => u.id == d) with
    | none => rw [addDependency_none_d hft hfd] at h; cases h
    | some w =>
      by_cases htd : t = d
      · rw [addDependency_self hft hfd htd] at h; cases h
      · by_cases hdup : (tk.dependencies.getD []).contains d = true
        · rw [addDependency_dup hft hfd htd hdup] at h; cases h
        · have hdup' : (tk.dependencies.getD []).contains d = false := by
            cases hc : (tk.dependencies.getD []).contains d
            · rfl
            · exact absurd hc hdup
          by_cases hcirc : isCircularDependency (normIf tasks t tk) d t = true
          · rw [addDependency_cycle hft hfd htd hdup' hcirc] at h; cases h
          · have hcirc' : isCircularDependency (normIf tasks t tk) d t = false := by
              cases hc : isCircularDependency (normIf tasks t tk) d t
              · rfl
              · exact absurd hc hcirc
            refine ⟨tk, rfl, rfl, htd, hdup', hcirc', ?_⟩
            rw [addDependency_success hft hfd htd hdup' hcirc']

theorem addDependency_preserves_acyclic {tasks : List Task} {t d now : Nat}
    (hac : Acyclic tasks) (h : (addDependency tasks t d now).fst = Except.ok ()) :
    Acyclic (addDependency tasks t d now).snd := by
  obtain ⟨tk, hft, _, htd, _, hcirc, hsnd⟩ := addDependency_ok_elim h
  rw [hsnd]
  obtain ⟨tk1, hf1, hD, _, _, _⟩ := normIf_find hft
  have hEq : ∀ a b, hasEdge (appendDep (normIf tasks t tk) t d now
      (tk.dependencies.getD [])) a b = true ↔
      (hasEdge (normIf tasks t tk) a b = true ∨ (a = t ∧ b = d)) :=
    appendDep_hasEdge hf1 hD
  have hEdges : ∀ a b, hasEdge (normIf tasks t tk) a b = hasEdge tasks a b :=
    normIf_hasEdge hft
  have hnr : ¬ Reaches (normIf tasks t tk) d t := not_reaches_of_circ_false hcirc
  intro x hx
  rcases reach_decomp hEq hx with hxx | ⟨h1, h2⟩
  · exact hac x (reaches_congr hEdges hxx)
  · exact hnr (reach_cross htd h1 h2)

/-! ### Facts about the concrete example collections -/

theorem acyclic_exC6 : Acyclic exC6 := by
  apply acyclic_of_measure (fun n => n)
  intro a b h
  show b < a
  obtain ⟨tkk, hm, hid, hb⟩ := hasEdge_exists h
  simp only [exC6, List.mem_cons, List.not_mem_nil, or_false] at hm
  rcases hm with rfl | rfl | rfl
  · simp at hb
  · simp at hid hb
    omega
  · simp at hid hb
    omega

theorem not_reaches_exNine_4_3 : ¬ Reaches exNine 4 3 := by
  intro h
  have hcl : ∀ a ∈ [4, 1, 2], ∀ b, hasEdge exNine a b = true → b ∈ [4, 1, 2] := by
    intro a _ b h2
    obtain ⟨tkk, hm, hid, hb⟩ := hasEdge_exists h2
    simp only [exNine, List.mem_cons, List.not_mem_nil, or_false] at hm
    rcases hm with rfl | rfl | rfl | rfl <;> simp_all
  have h3 := reach_closed hcl h (by simp)
  simp at h3

theorem exNinePlus_edges : ∀ a b, hasEdge exNinePlus a b = true ↔
    (hasEdge exNine a b = true ∨ (a = 3 ∧ b = 4)) := by
  intro a b
  constructor
  · intro h
    obtain ⟨tkk, hm, hid, hb⟩ := hasEdge_exists h
    simp only [exNinePlus, List.mem_cons, List.not_mem_nil, or_false] at hm
    rcases hm with rfl | rfl | rfl | rfl
    · simp at hid hb
      subst hid; subst hb
      exact Or.inl (by decide)
    · simp at hid hb
      subst hid; subst hb
      exact Or.inl (by decide)
    · simp at hid hb
      subst hid; subst hb
      exact Or.inr ⟨rfl, rfl⟩
    · simp at hid hb
      subst hid; subst hb
      exact Or.inl (by decide)
  · intro h
    rcases h with h | ⟨rfl, rfl⟩
    · obtain ⟨tkk, hm, hid, hb⟩ := hasEdge_exists h
      simp only [exNine, List.mem_cons, List.not_mem_nil, or_false] at hm
      rcases hm with rfl | rfl | rfl | rfl
      · simp at hid hb
        subst hid; subst hb
        decide
      · simp at hid hb
        subst hid; subst hb
        decide
      · simp at hb
      · simp at hid hb
        subst hid; subst hb
        decide
    · decide

/-! ### The claims -/

/-- Claim C9: there is a collection violating acyclicity (exNine has the
cycle 1 -> 2 -> 1) on which addDependency(3, 4) fails with CycleError even
though node 3 is not reachable from node 4, so the new edge 3 -> 4 would
create no new cycle: every cycle of the collection with that edge added
already exists without it. The rejection happens because the search from 4
revisits node 1 on its path, not because it reaches node 3. -/
theorem c9_spurious_cycle_error :
    Reaches exNine 1 1 ∧
    ¬ Reaches exNine 4 3 ∧
    (addDependency exNine 3 4 0).fst = Except.error AddError.cycleError ∧
    (∀ x, Reaches exNinePlus x x → Reaches exNine x x) := by
  refine ⟨@Reaches.cons exNine 1 2 1 (by decide)
      (@Reaches.single exNine 2 1 (by decide)),
    not_reaches_exNine_4_3, by decide, ?_⟩
  intro x hx
  rcases reach_decomp exNinePlus_edges hx with h | ⟨h1, h2⟩
  · exact h
  · exact absurd (reach_cross (by decide) h1 h2) not_reaches_exNine_4_3

/-- Witness for C9: the no-new-cycle conjunct applied to the concrete cycle
through node 1. -/
theorem c9_witness : Reaches exNinePlus 1 1 ∧ Reaches exNine 1 1 := by
  have h : Reaches exNinePlus 1 1 :=
    @Reaches.cons exNinePlus 1 2 1 (by decide)
      (@Reaches.single exNinePlus 2 1 (by decide))
  exact ⟨h, c9_spurious_cycle_error.2.2.2 1 h⟩

/-- Claim C10: isCircularDependency terminates on every finite task list:
a recursion-depth budget of the number of distinct node identifiers plus one
is never exhausted, because each nested call starts from an identifier not
yet in its path-local visited set. -/
theorem c10_circular_check_terminates (tasks : List Task)
    (taskId dependencyId : Nat) :
    (isCircularDependencyF tasks ((tasks.map Task.id).dedup.length + 1)
      taskId dependencyId []).isSome = true := by
  apply circF_total
  rw [freshCount_nil_visited]
  omega

/-- Claim C6: on the collection 1: deps [], 2: deps [1], 3: deps [2], the
call addDependency(3, 1) succeeds and node 3's list becomes [2, 1] (with the
timestamp on node 3 set); nothing else changes. -/
theorem c6_concrete_add :
    (addDependency exC6 3 1 0).fst = Except.ok () ∧
    (addDependency exC6 3 1 0).snd =
      [⟨1, some [], none, 0⟩, ⟨2, some [1], none, 0⟩,
       ⟨3, some [2, 1], some 0, 0⟩] := by
  decide

/-- Counterexample for C1 as stated: on the cyclic pair 1 <-> 2, node 1 is
reachable from node 2, both identifiers resolve, yet addDependency(1, 2)
fails with DuplicateEdgeError (2 is already in node 1's list), not
CycleError, because the duplicate-edge guard runs first. -/
theorem c1_counterexample :
    Reaches exPair 2 1 ∧
    (addDependency exPair 1 2 0).fst = Except.error AddError.duplicateEdge ∧
    (addDependency exPair 1 2 0).fst ≠ Except.error AddError.cycleError := by
  exact ⟨@Reaches.single exPair 2 1 (by decide), by decide, by decide⟩

/-- Claim C1 (amended): when both identifiers resolve, taskId and
dependencyId are distinct, dependencyId is not already in taskId's list, and
taskId is reachable from dependencyId, addDependency fails with CycleError;
the collection is unchanged except that a missing dependencies field on
taskId may be initialised to the empty list. -/
theorem c1_amended (tasks : List Task) (t d now : Nat) (tk : Task)
    (hft : tasks.find? (fun u => u.id == t) = some tk)
    (hfd : (tasks.find? (fun u => u.id == d)).isSome = true)
    (htd : t ≠ d)
    (hdup : (tk.dependencies.getD []).contains d = false)
    (hr : Reaches tasks d t) :
    (addDependency tasks t d now).fst = Except.error AddError.cycleError ∧
    ((addDependency tasks t d now).snd = tasks ∨
      (addDependency tasks t d now).snd =
        updateFirst tasks t (fun u => { u with dependencies := some [] })) := by
  cases hfd2 : tasks.find? (fun u => u.id == d) with
  | none => rw [hfd2] at hfd; simp at hfd
  | some w =>
    have hcirc : isCircularDependency (normIf tasks t tk) d t = true := by
      apply circ_true_of_reaches
      exact reaches_congr (fun a b => (normIf_hasEdge hft a b).symm) hr
    rw [addDependency_cycle hft hfd2 htd hdup hcirc]
    refine ⟨rfl, ?_⟩
    unfold normIf
    by_cases hN : tk.dependencies.isNone = true
    · rw [if_pos hN]; exact Or.inr rfl
    · rw [if_neg hN]; exact Or.inl rfl

/-- Witness for C1 (amended): node 3 is reachable from node 1, so adding
3 -> 1 is rejected with CycleError. -/
theorem c1_witness :
    Reaches exCycWit 1 3 ∧
    (addDependency exCycWit 3 1 0).fst = Except.error AddError.cycleError := by
  have hr : Reaches exCycWit 1 3 := @Reaches.single exCycWit 1 3 (by decide)
  exact ⟨hr, (c1_amended exCycWit 3 1 0 ⟨3, some [], none, 0⟩ (by decide)
    (by decide) (by decide) (by decide) hr).1⟩

/-- Counterexample for C3 as stated: the collection 1: deps [3] with task 3
lacking a dependencies field. addDependency(3, 1) fails with CycleError, but
the collection is not left as it was: task 3's missing dependencies field
has been created (initialised to the empty list) before the throw. -/
theorem c3_counterexample :
    (addDependency exMissingField 3 1 0).fst = Except.error AddError.cycleError ∧
    (addDependency exMissingField 3 1 0).snd ≠ exMissingField := by
  decide

/-- Claim C3 (amended): whenever addDependency returns an error, the
collection is unchanged, except that a CycleError raised for a task whose
dependencies field was missing leaves that field initialised to the empty
list; no other field of any task is created, removed, or modified. -/
theorem c3_amended (tasks : List Task) (t d now : Nat) (e : AddError)
    (h : (addDependency tasks t d now).fst = Except.error e) :
    (addDependency tasks t d now).snd = tasks ∨
    (e = AddError.cycleError ∧
      (addDependency tasks t d now).snd =
        updateFirst tasks t (fun u => { u with dependencies := some [] })) := by
  cases hft : tasks.find? (fun u => u.id == t) with
  | none => rw [addDependency_none_t hft]; exact Or.inl rfl
  | some tk =>
    cases hfd : tasks.find? (fun u => u.id == d) with
    | none => rw [addDependency_none_d hft hfd]; exact Or.inl rfl
    | some w =>
      by_cases htd : t = d
      · rw [addDependency_self hft hfd htd]; exact Or.inl rfl
      · by_cases hdup : (tk.dependencies.getD []).contains d = true
        · rw [addDependency_dup hft hfd htd hdup]
          left
          show normIf tasks t tk = tasks
          unfold normIf
          by_cases hN : tk.dependencies.isNone = true
          · exfalso
            cases hdep : tk.dependencies with
            | none => rw [hdep] at hdup; simp at hdup
            | some l => rw [hdep] at hN; simp at hN
          · rw [if_neg hN]
        · have hdup' : (tk.dependencies.getD []).contains d = false := by
            cases hc : (tk.dependencies.getD []).contains d
            · rfl
            · exact absurd hc hdup
          by_cases hcirc : isCircularDependency (normIf tasks t tk) d t = true
          · rw [addDependency_cycle hft hfd htd hdup' hcirc] at h ⊢
            have h2 : Except.error AddError.cycleError = Except.error e := h
            injection h2 with h3
            show normIf tasks t tk = tasks ∨ _
            unfold normIf
            by_cases hN : tk.dependencies.isNone = true
            · rw [if_pos hN]
              exact Or.inr ⟨h3.symm, rfl⟩
            · rw [if_neg hN]
              exact Or.inl rfl
          · have hcirc' : isCircularDependency (normIf tasks t tk) d t = false := by
              cases hc : isCircularDependency (normIf tasks t tk) d t
              · rfl
              · exact absurd hc hcirc
            rw [addDependency_success hft hfd htd hdup' hcirc'] at h
            cases h

/-- Witness for C3 (amended): a failed lookup leaves the collection as it
was. -/
theorem c3_witness :
    (addDependency exPair 5 1 0).fst = Except.error AddError.taskNotFound ∧
    ((addDependency exPair 5 1 0).snd = exPair ∨
      (AddError.taskNotFound = AddError.cycleError ∧
        (addDependency exPair 5 1 0).snd =
          updateFirst exPair 5 (fun u => { u with dependencies := some [] }))) := by
  have h : (addDependency exPair 5 1 0).fst = Except.error AddError.taskNotFound := by
    decide
  exact ⟨h, c3_amended exPair 5 1 0 AddError.taskNotFound h⟩

/-- Claim C4: on success, the updated collection differs from the input only
at the first task whose id is taskId: its dependency list is its previous
list (empty when the field was missing) with dependencyId appended at the
end, its last-modified stamp is set, and every other task and field is
untouched. -/
theorem c4_success_frame (tasks : List Task) (t d now : Nat)
    (h : (addDependency tasks t d now).fst = Except.ok ()) :
    (∀ i, i ≠ tasks.findIdx (fun u => u.id == t) →
      (addDependency tasks t d now).snd.get? i = tasks.get? i) ∧
    (∃ tk, tasks.get? (tasks.findIdx (fun u => u.id == t)) = some tk ∧
      (addDependency tasks t d now).snd.get?
          (tasks.findIdx (fun u => u.id == t)) =
        some { tk with dependencies := some (tk.dependencies.getD [] ++ [d]),
                       updatedAt := some now }) := by
  obtain ⟨tk, hft, _, _, _, _, hsnd⟩ := addDependency_ok_elim h
  rw [hsnd]
  unfold appendDep
  have hfind2 := normIf_find2 hft
  have hIdx : (normIf tasks t tk).findIdx (fun u => u.id == t) =
      tasks.findIdx (fun u => u.id == t) := by
    unfold normIf
    by_cases hN : tk.dependencies.isNone = true
    · rw [if_pos hN]
      exact updateFirst_findIdx (fun u => { u with dependencies := some [] })
        (fun u => rfl)
    · rw [if_neg hN]
  have hG1get : ∀ i, i ≠ tasks.findIdx (fun u => u.id == t) →
      (normIf tasks t tk).get? i = tasks.get? i := by
    intro i hi
    unfold normIf
    by_cases hN : tk.dependencies.isNone = true
    · rw [if_pos hN]
      exact updateFirst_get?_ne (fun u => { u with dependencies := some [] }) hi
    · rw [if_neg hN]
  constructor
  · intro i hi
    have h1 := updateFirst_get?_ne
      (l := normIf tasks t tk)
      (fun u => { u with dependencies := some (tk.dependencies.getD [] ++ [d]),
                         updatedAt := some now })
      (show i ≠ (normIf tasks t tk).findIdx (fun u => u.id == t) by
        rw [hIdx]; exact hi)
    exact h1.trans (hG1get i hi)
  · refine ⟨tk, find?_get_idx hft, ?_⟩
    have h2 := updateFirst_get?_at
      (fun u => { u with dependencies := some (tk.dependencies.getD [] ++ [d]),
                         updatedAt := some now }) hfind2
    rw [hIdx] at h2
    rw [h2]

/-- Witness for C4: the successful addDependency(3, 1) on the three-task
chain leaves position 0 untouched. -/
theorem c4_witness :
    (addDependency exC6 3 1 0).fst = Except.ok () ∧
    (addDependency exC6 3 1 0).snd.get? 0 = exC6.get? 0 := by
  have h : (addDependency exC6 3 1 0).fst = Except.ok () := by decide
  exact ⟨h, (c4_success_frame exC6 3 1 0 h).1 0 (by decide)⟩

/-- Claim C5: addDependency fails with a not-found error when either
identifier does not resolve; with SelfDependencyError when both resolve and
the identifiers are equal; and with DuplicateEdgeError when both resolve,
the identifiers are distinct, and the dependency is already listed. -/
theorem c5_error_cases (tasks : List Task) (t d now : Nat) :
    ((tasks.find? (fun u => u.id == t) = none ∨
        tasks.find? (fun u => u.id == d) = none) →
      ∃ e, (addDependency tasks t d now).fst = Except.error e ∧
        (e = AddError.taskNotFound ∨ e = AddError.depNotFound)) ∧
    (∀ tk, tasks.find? (fun u => u.id == t) = some tk →
      (tasks.find? (fun u => u.id == d)).isSome = true → t = d →
      (addDependency tasks t d now).fst = Except.error AddError.selfDependency) ∧
    (∀ tk, tasks.find? (fun u => u.id == t) = some tk →
      (tasks.find? (fun u => u.id == d)).isSome = true → t ≠ d →
      d ∈ tk.dependencies.getD [] →
      (addDependency tasks t d now).fst = Except.error AddError.duplicateEdge) := by
  refine ⟨?_, ?_, ?_⟩
  · intro h
    cases hft : tasks.find? (fun u => u.id == t) with
    | none =>
      exact ⟨AddError.taskNotFound, by rw [addDependency_none_t hft],
        Or.inl rfl⟩
    | some tk =>
      rcases h with h | h
      · rw [hft] at h; cases h
      · exact ⟨AddError.depNotFound, by rw [addDependency_none_d hft h],
          Or.inr rfl⟩
  · intro tk hft hfd htd
    cases hfd2 : tasks.find? (fun u => u.id == d) with
    | none => rw [hfd2] at hfd; simp at hfd
    | some w => rw [addDependency_self hft hfd2 htd]
  · intro tk hft hfd htd hdm
    cases hfd2 : tasks.find? (fun u => u.id == d) with
    | none => rw [hfd2] at hfd; simp at hfd
    | some w => rw [addDependency_dup hft hfd2 htd (contains_iff.mpr hdm)]

/-- Witness for C5: all three error families fire on concrete inputs. -/
theorem c5_witness :
    (∃ e, (addDependency exPair 5 1 0).fst = Except.error e ∧
      (e = AddError.taskNotFound ∨ e = AddError.depNotFound)) ∧
    (addDependency exPair 1 1 0).fst = Except.error AddError.selfDependency ∧
    (addDependency exPair 1 2 0).fst = Except.error AddError.duplicateEdge := by
  refine ⟨(c5_error_cases exPair 5 1 0).1 (Or.inl (by decide)),
    (c5_error_cases exPair 1 1 0).2.1 ⟨1, some [2], none, 0⟩ (by decide)
      (by decide) rfl,
    (c5_error_cases exPair 1 2 0).2.2 ⟨1, some [2], none, 0⟩ (by decide)
      (by decide) (by decide) (by decide)⟩

/-- Claim C2: starting from a collection satisfying referential integrity,
no self-loops, and acyclicity, any sequence of addDependency calls, keeping
only the successful results, yields a collection with no cycle. -/
theorem c2_sequences_acyclic (cmds : List (Nat × Nat × Nat)) (tasks : List Task)
    (h1 : RefIntegrity tasks) (h3 : NoSelfLoop tasks) (h2 : Acyclic tasks) :
    Acyclic (applyAdds tasks cmds) := by
  clear h1 h3
  induction cmds generalizing tasks with
  | nil => exact h2
  | cons c rest ih =>
    unfold applyAdds
    cases hadd : addDependency tasks c.1 c.2.1 c.2.2 with
    | mk res g2 =>
      cases res with
      | ok u =>
        have hok : (addDependency tasks c.1 c.2.1 c.2.2).fst = Except.ok () := by
          rw [hadd]
        have hac := addDependency_preserves_acyclic h2 hok
        rw [hadd] at hac
        exact ih g2 hac
      | error e =>
        exact ih tasks h2

/-- Witness for C2: the three-task chain satisfies the invariants and stays
acyclic after a successful addDependency. -/
theorem c2_witness :
    RefIntegrity exC6 ∧ NoSelfLoop exC6 ∧ Acyclic exC6 ∧
    Acyclic (applyAdds exC6 [(3, 1, 0)]) :=
  ⟨by unfold RefIntegrity; decide, by unfold NoSelfLoop; decide, acyclic_exC6,
    c2_sequences_acyclic [(3, 1, 0)] exC6 (by unfold RefIntegrity; decide)
      (by unfold NoSelfLoop; decide) acyclic_exC6⟩

/-! ### Soundness of the DFS cycle report: every reported cycle is real -/

theorem band_elim {a b : Bool} (h : (a && b) = true) : a = true ∧ b = true := by
  simp only [Bool.and_eq_true] at h
  exact h

theorem chainB_tail {g : List Task} {a : Nat} {rest : List Nat}
    (h : chainB g (a :: rest) = true) : chainB g rest = true := by
  cases rest with
  | nil => rfl
  | cons b rs =>
    unfold chainB at h
    exact (band_elim h).2

theorem chainB_dropWhile {g : List Task} {p : Nat → Bool} :
    ∀ {l : List Nat}, chainB g l = true → chainB g (l.dropWhile p) = true := by
  intro l
  induction l with
  | nil => intro h; exact h
  | cons a rest ih =>
    intro h
    rw [List.dropWhile_cons]
    by_cases hp : p a = true
    · rw [if_pos hp]
      exact ih (chainB_tail h)
    · rw [if_neg hp]
      exact h

theorem sliceFrom_cons {l : List Nat} {d : Nat} (h : l.contains d = true) :
    ∃ t2, sliceFrom l d = d :: t2 := by
  induction l with
  | nil => simp [List.contains] at h
  | cons a rest ih =>
    unfold sliceFrom
    rw [List.dropWhile_cons]
    by_cases had : a = d
    · subst had
      rw [if_neg (by simp)]
      exact ⟨rest, rfl⟩
    · rw [if_pos (by simp [had])]
      apply ih
      rw [List.contains_cons] at h
      have hda : (d == a) = false := by simp [Ne.symm had]
      rw [hda, Bool.false_or] at h
      exact h

theorem getLastD_irrel {l : List Nat} (hne : l ≠ []) (x y : Nat) :
    l.getLastD x = l.getLastD y := by
  cases l with
  | nil => exact absurd rfl hne
  | cons a rest => rw [List.getLastD_cons, List.getLastD_cons]

theorem dropWhile_last {l : List Nat} {p : Nat → Bool}
    (hne : l.dropWhile p ≠ []) (x : Nat) :
    (l.dropWhile p).getLastD x = l.getLastD x := by
  induction l with
  | nil => simp at hne
  | cons a rest ih =>
    rw [List.dropWhile_cons] at hne ⊢
    by_cases hp : p a = true
    · rw [if_pos hp] at hne ⊢
      have hrest : rest ≠ [] := by
        intro hr
        rw [hr] at hne
        simp at hne
      rw [ih hne, List.getLastD_cons]
      exact getLastD_irrel hrest x a
    · rw [if_neg hp]

theorem sliceFrom_last {l : List Nat} {d : Nat}
    (hne : sliceFrom l d ≠ []) (x : Nat) :
    (sliceFrom l d).getLastD x = l.getLastD x :=
  dropWhile_last hne x

theorem getLastD_concat (s : List Nat) (n x : Nat) :
    (s ++ [n]).getLastD x = n := by
  induction s generalizing x with
  | nil => rfl
  | cons a rest ih =>
    rw [List.cons_append, List.getLastD_cons]
    exact ih a

theorem chainB_concat {g : List Task} {a : Nat} :
    ∀ {l : List Nat}, l ≠ [] → chainB g l = true →
      hasEdge g (l.getLastD 0) a = true → chainB g (l ++ [a]) = true := by
  intro l
  induction l with
  | nil => intro h; exact absurd rfl h
  | cons x rest ih =>
    intro _ hchain hlast
    cases rest with
    | nil =>
      unfold chainB
      simp only [List.getLastD_cons] at hlast
      rw [List.cons_append, List.nil_append]
      show (hasEdge g x a && chainB g [a]) = true
      rw [Bool.and_eq_true]
      exact ⟨hlast, rfl⟩
    | cons y rs =>
      have h1 : hasEdge g x y = true := (band_elim hchain).1
      have h2 : chainB g (y :: rs) = true := (band_elim hchain).2
      have h3 : hasEdge g ((y :: rs).getLastD 0) a = true := by
        rw [List.getLastD_cons] at hlast
        rw [getLastD_irrel (l := y :: rs) (by simp) 0 x]
        exact hlast
      rw [List.cons_append]
      show (hasEdge g x ((y :: rs) ++ [a]).headI && chainB g ((y :: rs) ++ [a])) = true
      rw [Bool.and_eq_true]
      exact ⟨h1, ih (by simp) h2 h3⟩

theorem realCycle_slice {g : List Task} {stackQ : List Nat} {node d : Nat}
    (hchain : chainB g stackQ = true) (hne : stackQ ≠ [])
    (hlast : stackQ.getLastD 0 = node)
    (hcont : stackQ.contains d = true)
    (hedge : hasEdge g node d = true) :
    realCycle g (sliceFrom stackQ d) = true := by
  obtain ⟨t2, hslice⟩ := sliceFrom_cons hcont
  rw [hslice]
  unfold realCycle
  rw [Bool.and_eq_true]
  constructor
  · rw [← hslice]
    exact chainB_dropWhile hchain
  · have hne2 : sliceFrom stackQ d ≠ [] := by rw [hslice]; simp
    have hlast2 : (d :: t2).getLastD d = stackQ.getLastD d := by
      rw [← hslice]
      exact sliceFrom_last hne2 d
    rw [hlast2, getLastD_irrel hne d 0, hlast]
    exact hedge

theorem dfs_fold_sound {tasks : List Task} {node : Nat} {stackQ : List Nat}
    {rec : Nat → List Nat → List Nat × List (List Nat)}
    (hchain : chainB tasks stackQ = true)
    (hne : stackQ ≠ [])
    (hlast : stackQ.getLastD 0 = node)
    (hrec : ∀ d v, hasEdge tasks node d = true →
      ∀ c ∈ (rec d v).2, realCycle tasks c = true) :
    ∀ (ds : List Nat) (acc : List Nat × List (List Nat)),
      (∀ d ∈ ds, hasEdge tasks node d = true) →
      (∀ c ∈ acc.2, realCycle tasks c = true) →
      ∀ c ∈ (ds.foldl (dfsStep rec stackQ) acc).2, realCycle tasks c = true := by
  intro ds
  induction ds with
  | nil => intro acc _ hacc c hc; exact hacc c hc
  | cons d rest ih =>
    intro acc hds hacc
    rw [List.foldl_cons]
    apply ih
    · intro x hx; exact hds x (by simp [hx])
    · intro c hc
      unfold dfsStep at hc
      by_cases hcont : stackQ.contains d = true
      · rw [if_pos hcont] at hc
        rcases List.mem_append.mp hc with h1 | h1
        · exact hacc c h1
        · have hcs : c = sliceFrom stackQ d := by simpa using h1
          rw [hcs]
          exact realCycle_slice hchain hne hlast hcont (hds d (by simp))
      · rw [if_neg hcont] at hc
        by_cases hv : acc.1.contains d = true
        · rw [if_pos hv] at hc
          exact hacc c hc
        · rw [if_neg hv] at hc
          rcases List.mem_append.mp hc with h1 | h1
          · exact hacc c h1
          · exact hrec d acc.1 (hds d (by simp)) c h1

theorem cycleDFS_sound {tasks : List Task} :
    ∀ (fuel : Nat) (node : Nat) (stack visited : List Nat),
      chainB tasks (stack ++ [node]) = true →
      ∀ c ∈ (cycleDFS tasks fuel node stack visited).2, realCycle tasks c = true := by
  intro fuel
  induction fuel with
  | zero =>
    intro node stack visited _ c hc
    simp [cycleDFS] at hc
  | succ f ih =>
    intro node stack visited hchain
    unfold cycleDFS
    apply dfs_fold_sound hchain (by simp) (getLastD_concat stack node 0)
    · intro d v hed
      apply ih d (stack ++ [node]) v
      apply chainB_concat (by simp) hchain
      rw [getLastD_concat]
      exact hed
    · intro d hd
      exact mem_depsOf_hasEdge hd
    · intro c hc
      simp at hc

theorem cyclesOf_sound {tasks : List Task} :
    ∀ c ∈ cyclesOf tasks, realCycle tasks c = true := by
  have hfold : ∀ (ts : List Task) (acc : List Nat × List (List Nat)),
      (∀ c ∈ acc.2, realCycle tasks c = true) →
      ∀ c ∈ (ts.foldl (cyclesStep tasks) acc).2, realCycle tasks c = true := by
    intro ts
    induction ts with
    | nil => intro acc hacc c hc; exact hacc c hc
    | cons t rest ih =>
      intro acc hacc
      rw [List.foldl_cons]
      apply ih
      intro c hc
      unfold cyclesStep at hc
      by_cases hv : acc.1.contains t.id = true
      · rw [if_pos hv] at hc
        exact hacc c hc
      · rw [if_neg hv] at hc
        rcases List.mem_append.mp hc with h1 | h1
        · exact hacc c h1
        · exact cycleDFS_sound (dfsFuel tasks) t.id [] acc.1 rfl c h1
  intro c hc
  exact hfold tasks ([], []) (by simp) c hc

/-! ### The break edge of a real cycle exists in the graph -/

theorem base_le_foldl_max (l : List Nat) (a : Nat) : a ≤ l.foldl max a := by
  induction l generalizing a with
  | nil => simp
  | cons y ys ih =>
    rw [List.foldl_cons]
    exact (le_max_left a y).trans (ih (max a y))

theorem le_foldl_max (l : List Nat) (a : Nat) : ∀ x ∈ l, x ≤ l.foldl max a := by
  induction l generalizing a with
  | nil => intro x hx; simp at hx
  | cons y ys ih =>
    intro x hx
    rw [List.foldl_cons]
    rcases List.mem_cons.mp hx with rfl | hx2
    · exact (le_max_right a x).trans (base_le_foldl_max ys (max a x))
    · exact ih (max a y) x hx2

theorem foldl_max_mem (l : List Nat) (a : Nat) :
    l.foldl max a = a ∨ l.foldl max a ∈ l := by
  induction l generalizing a with
  | nil => exact Or.inl rfl
  | cons y ys ih =>
    rw [List.foldl_cons]
    rcases ih (max a y) with h | h
    · rcases max_choice a y with h2 | h2
      · exact Or.inl (h.trans h2)
      · exact Or.inr (by rw [h, h2]; simp)
    · exact Or.inr (by simp [h])

theorem cycMax_mem {c : List Nat} (hne : c ≠ []) : cycMax c ∈ c := by
  unfold cycMax
  rcases foldl_max_mem c 0 with h | h
  · obtain ⟨x, xs, rfl⟩ := List.exists_cons_of_ne_nil hne
    have hx := le_foldl_max (x :: xs) 0 x (by simp)
    rw [h] at hx ⊢
    have hx0 : x = 0 := Nat.le_zero.mp hx
    rw [← hx0]
    exact List.mem_cons_self x xs
  · exact h

theorem cycSuccAux_edge {g : List Task} {h0 m : Nat} :
    ∀ (l : List Nat), chainB g l = true →
      hasEdge g (l.getLastD h0) h0 = true → m ∈ l →
      hasEdge g m (cycSuccAux h0 m l) = true := by
  intro l
  induction l with
  | nil => intro _ _ hm; simp at hm
  | cons a rest ih =>
    intro hchain hclose hm
    cases rest with
    | nil =>
      have hma : m = a := by simpa using hm
      subst hma
      rw [List.getLastD_cons] at hclose
      exact hclose
    | cons b rest2 =>
      by_cases ham : (a == m) = true
      · unfold cycSuccAux
        rw [if_pos ham]
        have ham2 : a = m := by simpa using ham
        rw [← ham2]
        exact (band_elim hchain).1
      · unfold cycSuccAux
        rw [if_neg ham]
        apply ih
        · exact (band_elim hchain).2
        · rw [List.getLastD_cons] at hclose
          rw [getLastD_irrel (l := b :: rest2) (by simp) h0 a]
          exact hclose
        · rcases List.mem_cons.mp hm with rfl | h2
          · exact absurd (by simp) ham
          · exact h2

theorem realCycle_break_edge {g : List Task} {c : List Nat}
    (h : realCycle g c = true) :
    hasEdge g (cycMax c) (cycSucc c (cycMax c)) = true := by
  match c with
  | [] => simp [realCycle] at h
  | h0 :: t =>
    unfold realCycle at h
    obtain ⟨hchain, hclose⟩ := band_elim h
    have hmem : cycMax (h0 :: t) ∈ h0 :: t := cycMax_mem (by simp)
    unfold cycSucc
    rw [List.getLastD_cons] at hclose
    apply cycSuccAux_edge (h0 :: t) hchain
    · rw [List.getLastD_cons]
      exact hclose
    · exact hmem

/-! ### Edge removal: survivors, identifiers, and sizes -/

theorem applyRemovals_nil (g : List Task) : applyRemovals g [] = g := rfl

theorem applyRemovals_cons (g : List Task) (p : Nat × Nat)
    (qs : List (Nat × Nat)) :
    applyRemovals g (p :: qs) = applyRemovals (removeEdge g p.1 p.2) qs := rfl

theorem applyRemovals_append (g : List Task) (q1 q2 : List (Nat × Nat)) :
    applyRemovals g (q1 ++ q2) = applyRemovals (applyRemovals g q1) q2 := by
  unfold applyRemovals
  rw [List.foldl_append]

theorem optfilter (o : Option (List Nat)) (q : Nat → Bool) :
    (o.map (fun l => l.filter q)).getD [] = (o.getD []).filter q := by
  cases o <;> rfl

/-- Every task surviving a sequence of edge removals stems from a task of
the original collection with the same id, and every surviving dependency
entry was present originally and was not targeted by any removal aimed at
this task's id. -/
theorem svl : ∀ (qs : List (Nat × Nat)) (g : List Task) (t' : Task),
    t' ∈ applyRemovals g qs →
    ∃ t ∈ g, t'.id = t.id ∧
      (∀ x ∈ t'.dependencies.getD [], x ∈ t.dependencies.getD [] ∧
        ∀ p ∈ qs, p.1 = t'.id → p.2 ≠ x) := by
  intro qs
  induction qs with
  | nil =>
    intro g t' h
    exact ⟨t', h, rfl, fun x hx => ⟨hx, fun p hp => by simp at hp⟩⟩
  | cons p ps ih =>
    intro g t' h
    rw [applyRemovals_cons] at h
    obtain ⟨t1, ht1, hid1, hx1⟩ := ih (removeEdge g p.1 p.2) t' h
    obtain ⟨t0, ht0, hft⟩ := List.mem_map.mp ht1
    by_cases hida : t0.id = p.1
    · have hbeq : (t0.id == p.1) = true := by simpa using hida
      have ht1eq : t1 = { t0 with dependencies := (t0.dependencies.map (fun l => l.filter (fun x => x != p.2))) } :=
        hft.symm.trans (if_pos hbeq)
      refine ⟨t0, ht0, by rw [hid1, ht1eq], ?_⟩
      intro x hx
      obtain ⟨hx0, hps⟩ := hx1 x hx
      rw [ht1eq] at hx0
      have hx2 : x ∈ (t0.dependencies.getD []).filter (fun x => x != p.2) := by
        rw [← optfilter]
        exact hx0
      obtain ⟨hx3, hx4⟩ := List.mem_filter.mp hx2
      have hxne : x ≠ p.2 := by
        intro he
        rw [he] at hx4
        simp at hx4
      refine ⟨hx3, ?_⟩
      intro q hq hq1
      rcases List.mem_cons.mp hq with rfl | hq2
      · exact fun he => hxne he.symm
      · exact hps q hq2 hq1
    · have hbeq : (t0.id == p.1) = false := by simpa using hida
      have ht1eq : t1 = t0 := hft.symm.trans (if_neg (by simp [hbeq]))
      refine ⟨t0, ht0, by rw [hid1, ht1eq], ?_⟩
      intro x hx
      obtain ⟨hx0, hps⟩ := hx1 x hx
      rw [ht1eq] at hx0
      refine ⟨hx0, ?_⟩
      intro q hq hq1
      rcases List.mem_cons.mp hq with rfl | hq2
      · exfalso
        apply hida
        have hch : q.1 = t0.id := hq1.trans (hid1.trans (by rw [ht1eq]))
        exact hch.symm
      · exact hps q hq2 hq1

theorem removals_hasEdge_false {g : List Task} {qs : List (Nat × Nat)}
    {p : Nat × Nat} (hp : p ∈ qs) :
    hasEdge (applyRemovals g qs) p.1 p.2 = false := by
  cases he : hasEdge (applyRemovals g qs) p.1 p.2
  · rfl
  · exfalso
    obtain ⟨t', hmem, hid, hb⟩ := hasEdge_exists he
    obtain ⟨t, _, _, hx⟩ := svl qs g t' hmem
    obtain ⟨_, hcond⟩ := hx p.2 hb
    exact hcond p hp hid.symm rfl

theorem removeEdge_map_id (g : List Task) (a b : Nat) :
    (removeEdge g a b).map Task.id = g.map Task.id := by
  unfold removeEdge
  rw [List.map_map]
  apply List.map_congr_left
  intro t _
  by_cases h : (t.id == a) = true
  · simp [Function.comp, h]
  · simp [Function.comp, h]

theorem applyRemovals_map_id (qs : List (Nat × Nat)) (g : List Task) :
    (applyRemovals g qs).map Task.id = g.map Task.id := by
  induction qs generalizing g with
  | nil => rfl
  | cons p ps ih =>
    rw [applyRemovals_cons, ih, removeEdge_map_id]

theorem applyRemovals_existsNode (qs : List (Nat × Nat)) (g : List Task)
    (n : Nat) :
    existsNode (applyRemovals g qs) n = existsNode g n := by
  unfold existsNode
  have h1 : ∀ l : List Task, l.any (fun t => t.id == n) =
      (l.map Task.id).any (fun i => i == n) := by
    intro l
    induction l with
    | nil => rfl
    | cons a as ih =>
      rw [List.map_cons, List.any_cons, List.any_cons, ih]
  rw [h1, h1, applyRemovals_map_id]

theorem totalDeps_cons (t : Task) (rest : List Task) :
    totalDeps (t :: rest) = (t.dependencies.getD []).length + totalDeps rest := by
  unfold totalDeps
  simp

theorem removeEdge_cons (t : Task) (rest : List Task) (a b : Nat) :
    removeEdge (t :: rest) a b =
      (if (t.id == a) = true then
        { t with dependencies :=
            t.dependencies.map (fun l => l.filter (fun x => x != b)) }
      else t) :: removeEdge rest a b := rfl

theorem removeEdge_totalDeps_le (g : List Task) (a b : Nat) :
    totalDeps (removeEdge g a b) ≤ totalDeps g := by
  induction g with
  | nil => exact le_refl _
  | cons t rest ih =>
    rw [removeEdge_cons, totalDeps_cons, totalDeps_cons]
    by_cases h : (t.id == a) = true
    · rw [if_pos h]
      have hlen : (({ t with dependencies := (t.dependencies.map (fun l => l.filter (fun x => x != b))) } : Task).dependencies.getD []).length ≤ (t.dependencies.getD []).length := by
        show ((t.dependencies.map (fun l => l.filter (fun x => x != b))).getD []).length ≤ _
        rw [optfilter]
        exact List.length_filter_le _ _
      omega
    · rw [if_neg h]
      omega

theorem removeEdge_totalDeps_lt {g : List Task} {a b : Nat}
    (h : hasEdge g a b = true) :
    totalDeps (removeEdge g a b) < totalDeps g := by
  induction g with
  | nil =>
    unfold hasEdge depsOf at h
    simp at h
  | cons t rest ih =>
    rw [removeEdge_cons, totalDeps_cons, totalDeps_cons]
    by_cases hta : (t.id == a) = true
    · rw [if_pos hta]
      have hb : b ∈ t.dependencies.getD [] := by
        unfold hasEdge depsOf at h
        rw [List.find?_cons, hta] at h
        exact contains_iff.mp h
      have hstrict : (({ t with dependencies := (t.dependencies.map (fun l => l.filter (fun x => x != b))) } : Task).dependencies.getD []).length < (t.dependencies.getD []).length := by
        show ((t.dependencies.map (fun l => l.filter (fun x => x != b))).getD []).length < _
        rw [optfilter]
        apply List.length_filter_lt_length_iff_exists.mpr
        exact ⟨b, hb, by simp⟩
      have hrest := removeEdge_totalDeps_le rest a b
      omega
    · rw [if_neg hta]
      have hta2 : (t.id == a) = false := by simpa using hta
      have h2 : hasEdge rest a b = true := by
        unfold hasEdge depsOf at h ⊢
        rw [List.find?_cons, hta2] at h
        exact h
      have := ih h2
      omega

theorem applyRemovals_totalDeps_le (qs : List (Nat × Nat)) (g : List Task) :
    totalDeps (applyRemovals g qs) ≤ totalDeps g := by
  induction qs generalizing g with
  | nil => exact le_refl _
  | cons p ps ih =>
    rw [applyRemovals_cons]
    exact (ih _).trans (removeEdge_totalDeps_le g p.1 p.2)

/-! ### Convergence of the repair loop -/

theorem breakPairs_progress {g : List Task} (h : cyclesOf g ≠ []) :
    totalDeps (applyRemovals g (breakPairs (cyclesOf g))) < totalDeps g := by
  obtain ⟨c, rest, hc⟩ := List.exists_cons_of_ne_nil h
  have hcmem : c ∈ cyclesOf g := by rw [hc]; simp
  have hedge := realCycle_break_edge (cyclesOf_sound c hcmem)
  rw [hc]
  show totalDeps (applyRemovals g
    ((cycMax c, cycSucc c (cycMax c)) :: breakPairs rest)) < _
  rw [applyRemovals_cons]
  calc totalDeps (applyRemovals
        (removeEdge g (cycMax c) (cycSucc c (cycMax c))) (breakPairs rest))
      ≤ totalDeps (removeEdge g (cycMax c) (cycSucc c (cycMax c))) :=
        applyRemovals_totalDeps_le _ _
    _ < totalDeps g := removeEdge_totalDeps_lt hedge

theorem fixLoop_no_cycles : ∀ (fuel : Nat) (g : List Task),
    totalDeps g < fuel → cyclesOf (fixLoop fuel g) = [] := by
  intro fuel
  induction fuel with
  | zero => intro g h; omega
  | succ f ih =>
    intro g h
    unfold fixLoop
    by_cases hc : cyclesOf g = []
    · rw [if_pos hc]
      exact hc
    · rw [if_neg hc]
      apply ih
      have := breakPairs_progress hc
      omega

theorem cyclesOf_fix (g : List Task) : cyclesOf (fixDependencies g) = [] := by
  unfold fixDependencies
  apply fixLoop_no_cycles
  omega

/-! ### The repaired collection has an empty report -/

theorem fixLoop_as_removals : ∀ (fuel : Nat) (g : List Task),
    ∃ qs, fixLoop fuel g = applyRemovals g qs := by
  intro fuel
  induction fuel with
  | zero => intro g; exact ⟨[], rfl⟩
  | succ f ih =>
    intro g
    unfold fixLoop
    by_cases hc : cyclesOf g = []
    · rw [if_pos hc]
      exact ⟨[], rfl⟩
    · rw [if_neg hc]
      obtain ⟨qs, hqs⟩ := ih (applyRemovals g (breakPairs (cyclesOf g)))
      exact ⟨breakPairs (cyclesOf g) ++ qs, by rw [applyRemovals_append, hqs]⟩

theorem fix_as_removals (g : List Task) :
    ∃ qs, fixDependencies g = applyRemovals g
      (danglersOf g ++ (selfLoopsOf g).map (fun n => (n, n)) ++
        breakPairs (cyclesOf g) ++ qs) := by
  obtain ⟨qs, hqs⟩ :=
    fixLoop_as_removals (totalDeps (fixPrep g) + g.length + 1) (fixPrep g)
  refine ⟨qs, ?_⟩
  unfold fixDependencies
  rw [hqs]
  unfold fixPrep
  rw [applyRemovals_append, applyRemovals_append, applyRemovals_append]

theorem danglers_mem {g : List Task} {t : Task} {d : Nat}
    (ht : t ∈ g) (hd : d ∈ t.dependencies.getD [])
    (hex : existsNode g d = false) : (t.id, d) ∈ danglersOf g := by
  unfold danglersOf
  rw [List.mem_flatMap]
  refine ⟨t, ht, ?_⟩
  rw [List.mem_map]
  exact ⟨d, List.mem_filter.mpr ⟨hd, by simp [hex]⟩, rfl⟩

theorem selfloops_mem {g : List Task} {t : Task}
    (ht : t ∈ g) (hd : t.id ∈ t.dependencies.getD []) :
    t.id ∈ selfLoopsOf g := by
  unfold selfLoopsOf
  rw [List.mem_map]
  exact ⟨t, List.mem_filter.mpr ⟨ht, contains_iff.mpr hd⟩, rfl⟩

theorem danglers_fix (g : List Task) : danglersOf (fixDependencies g) = [] := by
  rw [List.eq_nil_iff_forall_not_mem]
  intro pr hpr
  unfold danglersOf at hpr
  rw [List.mem_flatMap] at hpr
  obtain ⟨t', ht', hmap⟩ := hpr
  rw [List.mem_map] at hmap
  obtain ⟨d, hdf, _⟩ := hmap
  obtain ⟨hd, hnx⟩ := List.mem_filter.mp hdf
  have hex : existsNode (fixDependencies g) d = false := by
    cases hval : existsNode (fixDependencies g) d
    · rfl
    · rw [hval] at hnx
      simp at hnx
  obtain ⟨qs, hF⟩ := fix_as_removals g
  rw [hF] at ht'
  obtain ⟨t, htg, hid, hx⟩ := svl _ g t' ht'
  obtain ⟨hdg, hcond⟩ := hx d hd
  have hexg : existsNode g d = false := by
    rw [hF, applyRemovals_existsNode] at hex
    exact hex
  have hmem : (t.id, d) ∈ danglersOf g := danglers_mem htg hdg hexg
  have hbig : ((t.id, d) : Nat × Nat) ∈
      (danglersOf g ++ (selfLoopsOf g).map (fun n => (n, n)) ++
        breakPairs (cyclesOf g) ++ qs) := by
    simp [hmem]
  exact hcond (t.id, d) hbig (by rw [hid]) rfl

theorem selfloops_fix (g : List Task) : selfLoopsOf (fixDependencies g) = [] := by
  rw [List.eq_nil_iff_forall_not_mem]
  intro n hn
  unfold selfLoopsOf at hn
  rw [List.mem_map] at hn
  obtain ⟨t', htf, hnid⟩ := hn
  obtain ⟨htmem, hcont⟩ := List.mem_filter.mp htf
  have hd : t'.id ∈ t'.dependencies.getD [] := contains_iff.mp hcont
  obtain ⟨qs, hF⟩ := fix_as_removals g
  rw [hF] at htmem
  obtain ⟨t, htg, hid, hx⟩ := svl _ g t' htmem
  obtain ⟨hdg, hcond⟩ := hx t'.id hd
  rw [hid] at hdg
  have hmem : t.id ∈ selfLoopsOf g := selfloops_mem htg hdg
  have hbig : ((t.id, t.id) : Nat × Nat) ∈
      (danglersOf g ++ (selfLoopsOf g).map (fun n => (n, n)) ++
        breakPairs (cyclesOf g) ++ qs) := by
    have hm2 : (t.id, t.id) ∈ (selfLoopsOf g).map (fun n => (n, n)) := by
      rw [List.mem_map]
      exact ⟨t.id, hmem, rfl⟩
    simp [hm2]
  exact hcond (t.id, t.id) hbig (by rw [hid]) hid.symm

theorem fixPrep_clean {g : List Task} (h1 : danglersOf g = [])
    (h2 : selfLoopsOf g = []) (h3 : cyclesOf g = []) : fixPrep g = g := by
  unfold fixPrep
  rw [h1, h2, h3]
  rfl

theorem fix_clean {g : List Task} (h1 : danglersOf g = [])
    (h2 : selfLoopsOf g = []) (h3 : cyclesOf g = []) :
    fixDependencies g = g := by
  unfold fixDependencies
  rw [fixPrep_clean h1 h2 h3]
  rw [fixLoop]
  rw [if_pos h3]

/-- Claim C8: fixDependencies is idempotent: running the repair on an
already-repaired collection changes nothing, for every collection. -/
theorem c8_fix_idempotent (g : List Task) :
    fixDependencies (fixDependencies g) = fixDependencies g :=
  fix_clean (danglers_fix g) (selfloops_fix g) (cyclesOf_fix g)

/-- Claim C7: for every collection and every cycle in its validation report,
the edge from the cycle's highest-identifier node to that node's successor
in the cycle ordering exists beforehand and is absent from the repaired
collection; in particular on the two-task cycle 1 <-> 2 the report is the
single cycle [1, 2], repair removes exactly the edge from node 2 to node 1
yielding 1: deps [2], 2: deps [], and the repaired collection's report shows
no cycle. -/
theorem c7_fix_breaks_cycles :
    (∀ (g : List Task) (c : List Nat), c ∈ (validateDependencies g).cycles →
      hasEdge g (cycMax c) (cycSucc c (cycMax c)) = true ∧
      hasEdge (fixDependencies g) (cycMax c) (cycSucc c (cycMax c)) = false) ∧
    (validateDependencies exPair).cycles = [[1, 2]] ∧
    fixDependencies exPair = exPairFixed ∧
    (validateDependencies exPairFixed).cycles = [] := by
  refine ⟨?_, by decide, by decide, by decide⟩
  intro g c hc
  have hc2 : c ∈ cyclesOf g := hc
  refine ⟨realCycle_break_edge (cyclesOf_sound c hc2), ?_⟩
  obtain ⟨qs, hF⟩ := fix_as_removals g
  rw [hF]
  have hp : ((cycMax c, cycSucc c (cycMax c)) : Nat × Nat) ∈
      (danglersOf g ++ (selfLoopsOf g).map (fun n => (n, n)) ++
        breakPairs (cyclesOf g) ++ qs) := by
    have hm2 : (cycMax c, cycSucc c (cycMax c)) ∈ breakPairs (cyclesOf g) := by
      unfold breakPairs
      rw [List.mem_map]
      exact ⟨c, hc2, rfl⟩
    simp [hm2]
  exact removals_hasEdge_false hp

/-- Witness for C7: the cycle [1, 2] of the two-task example, whose break
edge 2 -> 1 exists before the repair and is gone afterwards. -/
theorem c7_witness :
    ([1, 2] ∈ (validateDependencies exPair).cycles) ∧
    hasEdge exPair (cycMax [1, 2]) (cycSucc [1, 2] (cycMax [1, 2])) = true ∧
    hasEdge (fixDependencies exPair) (cycMax [1, 2])
      (cycSucc [1, 2] (cycMax [1, 2])) = false := by
  have hm : [1, 2] ∈ (validateDependencies exPair).cycles := by decide
  obtain ⟨h1, h2⟩ := c7_fix_breaks_cycles.1 exPair [1, 2] hm
  exact ⟨hm, h1, h2⟩


end TaskMaster
